import Mathlib

/-!
Verification of the mask-formatting logic of `masked-input.tsx`
(`charMatchesMask`, `formatToMask`, `handleKeyDown`) against its
natural-language specification.

Strings are modelled as `List Char`.  The imperative loop of
`formatToMask` (a single left-to-right pass over the mask with an
independent cursor into the raw input) is modelled as the structural
recursion `formatToMaskGo` over the mask list, carrying the
not-yet-consumed suffix of the input; the `break` statements become the
base cases returning the accumulated-so-far pair, and the accumulators
become the cons-cells built on the way out of the recursion.
-/

set_option autoImplicit false

namespace MaskedInput

/-- `charMatchesMask` (masked-input.tsx, lines 51-56): `'9'` accepts
digits (`/\d/`), `'a'` accepts ASCII letters (`/[A-Za-z]/`), `'*'`
accepts alphanumerics (`/[A-Za-z0-9]/`), and every other mask character
accepts nothing. -/
def charMatchesMask (c maskChar : Char) : Bool :=
  if maskChar = '9' then c.isDigit
  else if maskChar = 'a' then c.isAlpha
  else if maskChar = '*' then c.isAlphanum
  else false

/-- The test `['9', 'a', '*'].includes(maskChar)` used at lines 77 and
106 of masked-input.tsx to distinguish placeholder mask symbols from
literal ones. -/
def isPlaceholder (maskChar : Char) : Bool :=
  maskChar = '9' || maskChar = 'a' || maskChar = '*'

/-- The loop body of `formatToMask` (masked-input.tsx, lines 69-123).
First argument: the remaining mask suffix; second argument: the
not-yet-consumed suffix of the raw input.  Returns the
`(formatted, unformatted)` pair produced from this point on.

The three top-level cases are: mask exhausted (loop ends, line 73);
input exhausted at any mask position (the two `break`s at lines 90 and
120 - in both the placeholder and the literal branch an empty input
stops the loop); and the general step, which mirrors the placeholder
branch (lines 77-91) and the literal branch (lines 92-122) including
the one-position lookahead for auto-inserting literals. -/
def formatToMaskGo : List Char → List Char → List Char × List Char
  | [], _ => ([], [])
  | _ :: _, [] => ([], [])
  | m :: ms, c :: cs =>
    if isPlaceholder m then
      if charMatchesMask c m then
        (c :: (formatToMaskGo ms cs).1, c :: (formatToMaskGo ms cs).2)
      else
        formatToMaskGo ms (c :: cs)
    else if c = m then
      (m :: (formatToMaskGo ms cs).1, (formatToMaskGo ms cs).2)
    else
      match ms with
      | [] =>
        (m :: (formatToMaskGo ms (c :: cs)).1, (formatToMaskGo ms (c :: cs)).2)
      | m2 :: _ =>
        if isPlaceholder m2 then
          if charMatchesMask c m2 then
            (m :: (formatToMaskGo ms (c :: cs)).1,
              (formatToMaskGo ms (c :: cs)).2)
          else
            ([], [])
        else
          (m :: (formatToMaskGo ms (c :: cs)).1, (formatToMaskGo ms (c :: cs)).2)

/-- `formatToMask` (masked-input.tsx, lines 66-129) at `String` level:
run the loop over the whole mask starting with the whole raw input and
cursor 0. -/
def formatToMask (mask inputValue : String) : String × String :=
  ((formatToMaskGo mask.data inputValue.data).1.asString,
    (formatToMaskGo mask.data inputValue.data).2.asString)

/-- Number of placeholder symbols (`9`/`a`/`*`) in a mask. -/
def countPlaceholders (mask : List Char) : Nat :=
  (mask.filter (fun m => isPlaceholder m)).length

/-- Hypothesis predicate: no character of the input equals any literal
(non-placeholder) character of the mask, so the literal-consumption
branch of `formatToMask` (lines 94-100) can never fire.  This holds in
the component's real call sites, where the input is pre-filtered to
alphanumeric characters and typical masks use punctuation literals. -/
abbrev NoLitClash (mask input : List Char) : Prop :=
  ∀ c ∈ input, ∀ m ∈ mask, isPlaceholder m = false → c ≠ m

/-- Hypothesis predicate on masks: every literal is immediately followed
by a placeholder (so there is no trailing literal and no run of two
consecutive literals). -/
def maskWellFormed : List Char → Bool
  | [] => true
  | [m] => isPlaceholder m
  | m :: m2 :: ms => (isPlaceholder m || isPlaceholder m2) && maskWellFormed (m2 :: ms)

/-- Alignment of a `(formatted, unformatted)` pair with a mask: reading
the mask left to right, each mask position is either skipped (only
allowed for placeholders), filled by a consumed character matching the
placeholder's class (recorded in both components), or - for a literal -
contributes exactly the literal character to the formatted component
only; a suffix of the mask may be left unused when formatting stopped
early. -/
inductive MaskAligned : List Char → List Char → List Char → Prop where
  | stop : ∀ ms, MaskAligned ms [] []
  | skip : ∀ {m : Char} {ms f u}, isPlaceholder m = true →
      MaskAligned ms f u → MaskAligned (m :: ms) f u
  | place : ∀ {m c : Char} {ms f u}, isPlaceholder m = true →
      charMatchesMask c m = true →
      MaskAligned ms f u → MaskAligned (m :: ms) (c :: f) (c :: u)
  | lit : ∀ {m : Char} {ms f u}, isPlaceholder m = false →
      MaskAligned ms f u → MaskAligned (m :: ms) (m :: f) u

/-- Truncation property from the spec: the formatted string contains
nothing after the last placed (consumed-from-input) character - either
nothing was placed and nothing was formatted, or the formatted string
ends exactly at the last placed character. -/
abbrev truncatedAtLastPlaced (f u : List Char) : Prop :=
  (f = [] ∧ u = []) ∨ (u ≠ [] ∧ f.getLast? = u.getLast?)

/-- The fields of the key event consulted by `handleKeyDown`
(masked-input.tsx, lines 159-182). -/
structure KeyEvent where
  key : String
  ctrlKey : Bool
  metaKey : Bool
  altKey : Bool
  shiftKey : Bool

/-- The `allowedKeys` array (masked-input.tsx, lines 160-167). -/
def allowedKeys : List String :=
  ["Backspace", "Delete", "ArrowLeft", "ArrowRight", "Tab", "Enter"]

/-- `isModifierKey` (masked-input.tsx, line 169). -/
def isModifierKey (e : KeyEvent) : Bool :=
  e.ctrlKey || e.metaKey || e.altKey || e.shiftKey

/-- The test `/[A-Za-z0-9]/.test(e.key)` (masked-input.tsx, line 178):
true when the key string CONTAINS at least one alphanumeric character
anywhere (so multi-character key names such as "Escape" pass it). -/
def keyHasAlphanumeric (s : String) : Bool :=
  s.data.any (fun c => c.isAlphanum)

/-- Modelled from the spec's words for comparison (claim C8): the key
"is an alphanumeric character", i.e. the key string is one single
alphanumeric character.  This is NOT what line 178 of the source
computes. -/
def keyIsAlnumCharSpec (s : String) : Bool :=
  match s.data with
  | [c] => c.isAlphanum
  | _ => false

/-- `handleKeyDown` (masked-input.tsx, lines 159-182), abstracted to the
one observable the claims speak about: whether `e.preventDefault()` is
called.  The three early returns (modifier combination, allowed key,
key passing the alphanumeric regex) yield `false`; everything else is
blocked. -/
def handleKeyDownPreventsDefault (e : KeyEvent) : Bool :=
  if isModifierKey e then false
  else if allowedKeys.contains e.key then false
  else if keyHasAlphanumeric e.key then false
  else true

/-! ### Step lemmas: the individual branches of the formatting loop -/

theorem go_nil_mask (input : List Char) : formatToMaskGo [] input = ([], []) :=
  rfl

theorem go_nil_input (mask : List Char) : formatToMaskGo mask [] = ([], []) := by
  cases mask <;> rfl

theorem go_placeholder_match {m c : Char} (ms cs : List Char)
    (hp : isPlaceholder m = true) (hc : charMatchesMask c m = true) :
    formatToMaskGo (m :: ms) (c :: cs) =
      (c :: (formatToMaskGo ms cs).1, c :: (formatToMaskGo ms cs).2) := by
  simp [formatToMaskGo, hp, hc]

theorem go_placeholder_skip {m c : Char} (ms cs : List Char)
    (hp : isPlaceholder m = true) (hc : charMatchesMask c m = false) :
    formatToMaskGo (m :: ms) (c :: cs) = formatToMaskGo ms (c :: cs) := by
  simp [formatToMaskGo, hp, hc]

theorem go_literal_consume {m : Char} (ms cs : List Char)
    (hp : isPlaceholder m = false) :
    formatToMaskGo (m :: ms) (m :: cs) =
      (m :: (formatToMaskGo ms cs).1, (formatToMaskGo ms cs).2) := by
  simp [formatToMaskGo, hp]

theorem go_literal_insert_last {m c : Char} (cs : List Char)
    (hp : isPlaceholder m = false) (hcm : c ≠ m) :
    formatToMaskGo [m] (c :: cs) = ([m], []) := by
  simp [formatToMaskGo, hp, hcm]

theorem go_literal_insert_match {m c m2 : Char} (ms2 cs : List Char)
    (hp : isPlaceholder m = false) (hcm : c ≠ m)
    (hp2 : isPlaceholder m2 = true) (hc2 : charMatchesMask c m2 = true) :
    formatToMaskGo (m :: m2 :: ms2) (c :: cs) =
      (m :: (formatToMaskGo (m2 :: ms2) (c :: cs)).1,
        (formatToMaskGo (m2 :: ms2) (c :: cs)).2) := by
  simp [formatToMaskGo, hp, hcm, hp2, hc2]

theorem go_literal_stop {m c m2 : Char} (ms2 cs : List Char)
    (hp : isPlaceholder m = false) (hcm : c ≠ m)
    (hp2 : isPlaceholder m2 = true) (hc2 : charMatchesMask c m2 = false) :
    formatToMaskGo (m :: m2 :: ms2) (c :: cs) = ([], []) := by
  simp [formatToMaskGo, hp, hcm, hp2, hc2]

theorem go_literal_insert_lit {m c m2 : Char} (ms2 cs : List Char)
    (hp : isPlaceholder m = false) (hcm : c ≠ m)
    (hp2 : isPlaceholder m2 = false) :
    formatToMaskGo (m :: m2 :: ms2) (c :: cs) =
      (m :: (formatToMaskGo (m2 :: ms2) (c :: cs)).1,
        (formatToMaskGo (m2 :: ms2) (c :: cs)).2) := by
  simp [formatToMaskGo, hp, hcm, hp2]

/-! ### Structural invariants of the formatting loop -/

/-- The unformatted output is a subsequence of the raw input: every
consumption takes the current input head, and skipped mask positions
leave the input untouched. -/
theorem go_unformatted_sublist (mask : List Char) :
    ∀ input : List Char, ((formatToMaskGo mask input).2).Sublist input := by
  induction mask with
  | nil => intro input; simp [go_nil_mask]
  | cons m ms ih =>
    intro input
    cases input with
    | nil => simp [go_nil_input]
    | cons c cs =>
      cases hp : isPlaceholder m with
      | true =>
        cases hc : charMatchesMask c m with
        | true =>
          rw [go_placeholder_match ms cs hp hc]
          exact (ih cs).cons₂ c
        | false =>
          rw [go_placeholder_skip ms cs hp hc]
          exact ih (c :: cs)
      | false =>
        by_cases hcm : c = m
        · subst hcm
          rw [go_literal_consume ms cs hp]
          exact (ih cs).cons c
        · cases ms with
          | nil =>
            rw [go_literal_insert_last cs hp hcm]
            simp
          | cons m2 ms2 =>
            cases hp2 : isPlaceholder m2 with
            | true =>
              cases hc2 : charMatchesMask c m2 with
              | true =>
                rw [go_literal_insert_match ms2 cs hp hcm hp2 hc2]
                exact ih (c :: cs)
              | false =>
                rw [go_literal_stop ms2 cs hp hcm hp2 hc2]
                simp
            | false =>
              rw [go_literal_insert_lit ms2 cs hp hcm hp2]
              exact ih (c :: cs)

/-- The unformatted output is a subsequence of the formatted output:
every consumed character is appended to both, and literal positions add
characters only to the formatted side. -/
theorem go_unformatted_sub_formatted (mask : List Char) :
    ∀ input : List Char,
      ((formatToMaskGo mask input).2).Sublist ((formatToMaskGo mask input).1) := by
  induction mask with
  | nil => intro input; simp [go_nil_mask]
  | cons m ms ih =>
    intro input
    cases input with
    | nil => simp [go_nil_input]
    | cons c cs =>
      cases hp : isPlaceholder m with
      | true =>
        cases hc : charMatchesMask c m with
        | true =>
          rw [go_placeholder_match ms cs hp hc]
          exact (ih cs).cons₂ c
        | false =>
          rw [go_placeholder_skip ms cs hp hc]
          exact ih (c :: cs)
      | false =>
        by_cases hcm : c = m
        · subst hcm
          rw [go_literal_consume ms cs hp]
          exact (ih cs).cons c
        · cases ms with
          | nil =>
            rw [go_literal_insert_last cs hp hcm]
            simp
          | cons m2 ms2 =>
            cases hp2 : isPlaceholder m2 with
            | true =>
              cases hc2 : charMatchesMask c m2 with
              | true =>
                rw [go_literal_insert_match ms2 cs hp hcm hp2 hc2]
                exact (ih (c :: cs)).cons m
              | false =>
                rw [go_literal_stop ms2 cs hp hcm hp2 hc2]
            | false =>
              rw [go_literal_insert_lit ms2 cs hp hcm hp2]
              exact (ih (c :: cs)).cons m

/-- The formatted output never exceeds the mask's length: each mask
position contributes at most one character. -/
theorem go_formatted_length (mask : List Char) :
    ∀ input : List Char,
      ((formatToMaskGo mask input).1).length ≤ mask.length := by
  induction mask with
  | nil => intro input; simp [go_nil_mask]
  | cons m ms ih =>
    intro input
    cases input with
    | nil => simp [go_nil_input]
    | cons c cs =>
      cases hp : isPlaceholder m with
      | true =>
        cases hc : charMatchesMask c m with
        | true =>
          rw [go_placeholder_match ms cs hp hc]
          simpa using ih cs
        | false =>
          rw [go_placeholder_skip ms cs hp hc]
          exact (ih (c :: cs)).trans (Nat.le_succ _)
      | false =>
        by_cases hcm : c = m
        · subst hcm
          rw [go_literal_consume ms cs hp]
          simpa using ih cs
        · cases ms with
          | nil =>
            rw [go_literal_insert_last cs hp hcm]
          | cons m2 ms2 =>
            cases hp2 : isPlaceholder m2 with
            | true =>
              cases hc2 : charMatchesMask c m2 with
              | true =>
                rw [go_literal_insert_match ms2 cs hp hcm hp2 hc2]
                simpa using ih (c :: cs)
              | false =>
                rw [go_literal_stop ms2 cs hp hcm hp2 hc2]
                simp
            | false =>
              rw [go_literal_insert_lit ms2 cs hp hcm hp2]
              simpa using ih (c :: cs)

/-- The output of the formatting loop is aligned with the mask: literal
characters in the formatted string are exactly the mask's literals, in
order, and the placeholder positions hold the consumed characters,
which match their placeholder's class. -/
theorem go_maskAligned (mask : List Char) :
    ∀ input : List Char,
      MaskAligned mask (formatToMaskGo mask input).1 (formatToMaskGo mask input).2 := by
  induction mask with
  | nil => intro input; rw [go_nil_mask]; exact MaskAligned.stop []
  | cons m ms ih =>
    intro input
    cases input with
    | nil => rw [go_nil_input]; exact MaskAligned.stop _
    | cons c cs =>
      cases hp : isPlaceholder m with
      | true =>
        cases hc : charMatchesMask c m with
        | true =>
          rw [go_placeholder_match ms cs hp hc]
          exact MaskAligned.place hp hc (ih cs)
        | false =>
          rw [go_placeholder_skip ms cs hp hc]
          exact MaskAligned.skip hp (ih (c :: cs))
      | false =>
        by_cases hcm : c = m
        · subst hcm
          rw [go_literal_consume ms cs hp]
          exact MaskAligned.lit hp (ih cs)
        · cases ms with
          | nil =>
            rw [go_literal_insert_last cs hp hcm]
            have h0 := ih (c :: cs)
            rw [go_nil_mask] at h0
            exact MaskAligned.lit hp h0
          | cons m2 ms2 =>
            cases hp2 : isPlaceholder m2 with
            | true =>
              cases hc2 : charMatchesMask c m2 with
              | true =>
                rw [go_literal_insert_match ms2 cs hp hcm hp2 hc2]
                exact MaskAligned.lit hp (ih (c :: cs))
              | false =>
                rw [go_literal_stop ms2 cs hp hcm hp2 hc2]
                exact MaskAligned.stop _
            | false =>
              rw [go_literal_insert_lit ms2 cs hp hcm hp2]
              exact MaskAligned.lit hp (ih (c :: cs))

/-- The alignment relation itself already forces the unformatted value
to be a subsequence of the formatted one. -/
theorem maskAligned_sublist {ms f u : List Char} (h : MaskAligned ms f u) :
    u.Sublist f := by
  induction h with
  | stop => simp
  | skip _ _ ih => exact ih
  | place _ _ _ ih => exact ih.cons₂ _
  | lit _ _ ih => exact ih.cons _

/-! ### Replay analysis: running the loop again on its own unformatted
output -/

theorem noLitClash_tail_mask {m : Char} {ms input : List Char}
    (h : NoLitClash (m :: ms) input) : NoLitClash ms input :=
  fun c hc m' hm' => h c hc m' (List.mem_cons_of_mem m hm')

theorem noLitClash_tail_input {mask : List Char} {c : Char} {cs : List Char}
    (h : NoLitClash mask (c :: cs)) : NoLitClash mask cs :=
  fun c' hc' => h c' (List.mem_cons_of_mem c hc')

theorem noLitClash_head {mask : List Char} {c : Char} {cs : List Char}
    (h : NoLitClash mask (c :: cs)) {m : Char} (hm : m ∈ mask)
    (hp : isPlaceholder m = false) : c ≠ m :=
  h c (List.mem_cons_self c cs) m hm hp

theorem maskWellFormed_tail {m : Char} {ms : List Char}
    (h : maskWellFormed (m :: ms) = true) : maskWellFormed ms = true := by
  cases ms with
  | nil => rfl
  | cons m2 ms2 =>
    rw [maskWellFormed, Bool.and_eq_true] at h
    exact h.2

theorem maskWellFormed_literal {m : Char} {ms : List Char}
    (h : maskWellFormed (m :: ms) = true) (hp : isPlaceholder m = false) :
    ∃ m2 ms2, ms = m2 :: ms2 ∧ isPlaceholder m2 = true := by
  cases ms with
  | nil =>
    rw [maskWellFormed] at h
    exact absurd h (by simp [hp])
  | cons m2 ms2 =>
    rw [maskWellFormed, Bool.and_eq_true, Bool.or_eq_true] at h
    rcases h.1 with hm | hm2
    · exact absurd hm (by simp [hp])
    · exact ⟨m2, ms2, rfl, hm2⟩

/-- When the input clashes with no literal of the mask, a nonempty
unformatted output necessarily starts with the current input head: the
loop only ever consumes the head, and under the no-clash hypothesis
every consumption is a placeholder consumption, hence recorded in the
unformatted output. -/
theorem go_u_head (mask : List Char) :
    ∀ (c : Char) (cs : List Char), NoLitClash mask (c :: cs) →
      (formatToMaskGo mask (c :: cs)).2 = [] ∨
        ∃ t, (formatToMaskGo mask (c :: cs)).2 = c :: t := by
  induction mask with
  | nil => intro c cs _; left; rw [go_nil_mask]
  | cons m ms ih =>
    intro c cs h
    cases hp : isPlaceholder m with
    | true =>
      cases hc : charMatchesMask c m with
      | true =>
        rw [go_placeholder_match ms cs hp hc]
        exact Or.inr ⟨_, rfl⟩
      | false =>
        rw [go_placeholder_skip ms cs hp hc]
        exact ih c cs (noLitClash_tail_mask h)
    | false =>
      have hcm : c ≠ m := noLitClash_head h (List.mem_cons_self m ms) hp
      cases ms with
      | nil =>
        rw [go_literal_insert_last cs hp hcm]
        exact Or.inl rfl
      | cons m2 ms2 =>
        cases hp2 : isPlaceholder m2 with
        | true =>
          cases hc2 : charMatchesMask c m2 with
          | true =>
            rw [go_literal_insert_match ms2 cs hp hcm hp2 hc2]
            exact ih c cs (noLitClash_tail_mask h)
          | false =>
            rw [go_literal_stop ms2 cs hp hcm hp2 hc2]
            exact Or.inl rfl
        | false =>
          rw [go_literal_insert_lit ms2 cs hp hcm hp2]
          exact ih c cs (noLitClash_tail_mask h)

/-- When the input clashes with no literal of a well-formed mask and the
input is nonempty, an empty unformatted output forces an empty formatted
output: every literal is followed by a placeholder, so a literal can
only be emitted when the following placeholder consumes a character. -/
theorem go_u_nil_f_nil (mask : List Char) :
    ∀ (c : Char) (cs : List Char), NoLitClash mask (c :: cs) →
      maskWellFormed mask = true →
      (formatToMaskGo mask (c :: cs)).2 = [] →
      (formatToMaskGo mask (c :: cs)).1 = [] := by
  induction mask with
  | nil => intro c cs _ _ _; rw [go_nil_mask]
  | cons m ms ih =>
    intro c cs h hwf hu
    cases hp : isPlaceholder m with
    | true =>
      cases hc : charMatchesMask c m with
      | true =>
        rw [go_placeholder_match ms cs hp hc] at hu
        simp at hu
      | false =>
        rw [go_placeholder_skip ms cs hp hc] at hu ⊢
        exact ih c cs (noLitClash_tail_mask h) (maskWellFormed_tail hwf) hu
    | false =>
      have hcm : c ≠ m := noLitClash_head h (List.mem_cons_self m ms) hp
      obtain ⟨m2, ms2, rfl, hp2⟩ := maskWellFormed_literal hwf hp
      cases hc2 : charMatchesMask c m2 with
      | true =>
        rw [go_literal_insert_match ms2 cs hp hcm hp2 hc2,
          go_placeholder_match ms2 cs hp2 hc2] at hu
        simp at hu
      | false =>
        rw [go_literal_stop ms2 cs hp hcm hp2 hc2]

/-- Replay lemma: under the no-literal-clash hypothesis and for a
well-formed mask, running the formatting loop on the unformatted output
of a first run reproduces the first run's entire result. -/
theorem go_replay (mask : List Char) :
    ∀ input : List Char, NoLitClash mask input → maskWellFormed mask = true →
      formatToMaskGo mask ((formatToMaskGo mask input).2) =
        formatToMaskGo mask input := by
  induction mask with
  | nil => intro input _ _; simp [go_nil_mask]
  | cons m ms ih =>
    intro input h hwf
    cases input with
    | nil => simp [go_nil_input]
    | cons c cs =>
      cases hp : isPlaceholder m with
      | true =>
        cases hc : charMatchesMask c m with
        | true =>
          have ihc := ih cs (noLitClash_tail_mask (noLitClash_tail_input h))
            (maskWellFormed_tail hwf)
          rw [go_placeholder_match ms cs hp hc]
          dsimp only
          rw [go_placeholder_match ms ((formatToMaskGo ms cs).2) hp hc, ihc]
        | false =>
          have h' : NoLitClash ms (c :: cs) := noLitClash_tail_mask h
          have hwf' := maskWellFormed_tail hwf
          have ihs := ih (c :: cs) h' hwf'
          rw [go_placeholder_skip ms cs hp hc]
          rcases go_u_head ms c cs h' with hnil | ⟨t, ht⟩
          · rw [hnil, go_nil_input]
            exact (Prod.ext (go_u_nil_f_nil ms c cs h' hwf' hnil) hnil).symm
          · rw [ht, go_placeholder_skip ms t hp hc, ← ht]
            exact ihs
      | false =>
        have hcm : c ≠ m := noLitClash_head h (List.mem_cons_self m ms) hp
        obtain ⟨m2, ms2, rfl, hp2⟩ := maskWellFormed_literal hwf hp
        have h' : NoLitClash (m2 :: ms2) (c :: cs) := noLitClash_tail_mask h
        have hwf' := maskWellFormed_tail hwf
        have ihs := ih (c :: cs) h' hwf'
        cases hc2 : charMatchesMask c m2 with
        | true =>
          have hu : (formatToMaskGo (m2 :: ms2) (c :: cs)).2 =
              c :: (formatToMaskGo ms2 cs).2 := by
            rw [go_placeholder_match ms2 cs hp2 hc2]
          rw [go_literal_insert_match ms2 cs hp hcm hp2 hc2]
          dsimp only
          rw [hu, go_literal_insert_match ms2 ((formatToMaskGo ms2 cs).2) hp hcm hp2 hc2,
            ← hu, ihs]
        | false =>
          rw [go_literal_stop ms2 cs hp hcm hp2 hc2]
          dsimp only
          rw [go_nil_input]

/-! ### Truncation analysis for fully consumed inputs -/

theorem getLast?_cons_eq {α : Type} (a : α) {l l' : List α}
    (h : l.getLast? = l'.getLast?) (h' : l' ≠ []) :
    (a :: l).getLast? = l'.getLast? := by
  cases l with
  | nil =>
    rw [show ([] : List α).getLast? = none from rfl] at h
    exact absurd h.symm (by simpa [List.getLast?_eq_none_iff] using h')
  | cons b t => rw [List.getLast?_cons_cons]; exact h

/-- When the formatting loop consumes its entire input (the unformatted
output equals the input) and the input is nonempty, the formatted
output ends exactly at the last consumed character: nothing - in
particular no auto-inserted literal - follows it. -/
theorem go_full_consumption_last (mask : List Char) :
    ∀ input : List Char, input ≠ [] →
      (formatToMaskGo mask input).2 = input →
      (formatToMaskGo mask input).1.getLast? = input.getLast? := by
  induction mask with
  | nil =>
    intro input hne hu
    rw [go_nil_mask] at hu
    exact absurd hu.symm hne
  | cons m ms ih =>
    intro input hne hu
    cases input with
    | nil => exact absurd rfl hne
    | cons c cs =>
      cases hp : isPlaceholder m with
      | true =>
        cases hc : charMatchesMask c m with
        | true =>
          rw [go_placeholder_match ms cs hp hc] at hu ⊢
          dsimp only at hu ⊢
          have hu' : (formatToMaskGo ms cs).2 = cs := by
            exact (List.cons.injEq _ _ _ _).mp hu |>.2
          cases cs with
          | nil => rw [go_nil_input]
          | cons c2 cs2 =>
            exact getLast?_cons_eq c (ih (c2 :: cs2) (by simp) hu') (by simp)
        | false =>
          rw [go_placeholder_skip ms cs hp hc] at hu ⊢
          exact ih (c :: cs) hne hu
      | false =>
        by_cases hcm : c = m
        · subst hcm
          rw [go_literal_consume ms cs hp] at hu
          dsimp only at hu
          have hsl := (go_unformatted_sublist ms cs).length_le
          rw [hu] at hsl
          simp at hsl
        · cases ms with
          | nil =>
            rw [go_literal_insert_last cs hp hcm] at hu
            exact absurd hu.symm (by simp)
          | cons m2 ms2 =>
            cases hp2 : isPlaceholder m2 with
            | true =>
              cases hc2 : charMatchesMask c m2 with
              | true =>
                rw [go_literal_insert_match ms2 cs hp hcm hp2 hc2] at hu ⊢
                dsimp only at hu ⊢
                exact getLast?_cons_eq m (ih (c :: cs) hne hu) hne
              | false =>
                rw [go_literal_stop ms2 cs hp hcm hp2 hc2] at hu
                exact absurd hu.symm hne
            | false =>
              rw [go_literal_insert_lit ms2 cs hp hcm hp2] at hu ⊢
              dsimp only at hu ⊢
              exact getLast?_cons_eq m (ih (c :: cs) hne hu) hne

/-! ### The claims -/

/-- C1 counterexample: idempotence fails as universally stated.  For
mask "-" and raw input "x" the first application auto-inserts the
trailing literal (formatted "-", unformatted ""); re-applying the
formatter to the empty unformatted output stops immediately at the
literal and yields formatted "", not "-". -/
theorem c1_idempotence_counterexample :
    ¬ (formatToMask "-" ((formatToMask "-" "x").2)).1 = (formatToMask "-" "x").1 := by
  decide

/-- C1 (amended): for every mask in which each literal symbol is
immediately followed by a placeholder (no trailing literal, no two
consecutive literals) and every raw input none of whose characters
equals a literal of the mask, re-applying `formatToMask` to the
unformatted output of a first application reproduces the first
application's entire result - in particular the same formatted string,
so the unformatted value is a stable fixed point. -/
theorem c1_idempotence_amended (mask input : String)
    (h1 : NoLitClash mask.data input.data)
    (h2 : maskWellFormed mask.data = true) :
    formatToMask mask ((formatToMask mask input).2) = formatToMask mask input := by
  have h := go_replay mask.data input.data h1 h2
  simp only [formatToMask]
  rw [show ((formatToMaskGo mask.data input.data).2.asString).data =
      (formatToMaskGo mask.data input.data).2 from rfl]
  rw [h]

theorem c1_idempotence_witness :
    NoLitClash "99/99/9999".data "0115".data ∧
      maskWellFormed "99/99/9999".data = true ∧
      formatToMask "99/99/9999" ((formatToMask "99/99/9999" "0115").2) =
        formatToMask "99/99/9999" "0115" :=
  ⟨by decide, by decide,
    c1_idempotence_amended "99/99/9999" "0115" (by decide) (by decide)⟩

/-- C2: for every mask and raw input, the unformatted result is a
subsequence of the formatted result, and the formatted result is
aligned with the mask: reading the mask left to right up to the point
formatting stopped, each formatted character produced at a literal
mask position is that literal, and each one produced at a placeholder
position is a consumed input character matching that placeholder's
class (those are exactly the characters of the unformatted result). -/
theorem c2_unformatted_subsequence_and_alignment (mask input : List Char) :
    ((formatToMaskGo mask input).2).Sublist ((formatToMaskGo mask input).1) ∧
      MaskAligned mask (formatToMaskGo mask input).1 (formatToMaskGo mask input).2 :=
  ⟨go_unformatted_sub_formatted mask input, go_maskAligned mask input⟩

/-- C3 counterexample: the truncation claim fails as universally
stated.  For mask "9--99" and raw input "1x" (length 2, below the
placeholder count 3), the loop places '1', auto-inserts the first '-'
because the following mask position is again a literal, and only then
stops at the second '-': formatted is "1-", which ends in an
auto-inserted literal after the last placed character. -/
theorem c3_truncation_counterexample :
    (['1', 'x'] : List Char).length < countPlaceholders ['9', '-', '-', '9', '9'] ∧
      ¬ truncatedAtLastPlaced (formatToMaskGo ['9', '-', '-', '9', '9'] ['1', 'x']).1
          (formatToMaskGo ['9', '-', '-', '9', '9'] ['1', 'x']).2 := by
  decide

/-- C3 (amended): for every mask and nonempty raw input shorter than
the mask's placeholder count which the loop consumes entirely (the
unformatted output equals the raw input), the formatted output is
truncated at the last successfully placed character and never padded:
it ends exactly at the last consumed character, with no auto-inserted
literals after it. -/
theorem c3_truncation_amended (mask input : List Char) (h0 : input ≠ [])
    (_h1 : input.length < countPlaceholders mask)
    (h2 : (formatToMaskGo mask input).2 = input) :
    truncatedAtLastPlaced (formatToMaskGo mask input).1
      (formatToMaskGo mask input).2 := by
  refine Or.inr ⟨?_, ?_⟩
  · rw [h2]; exact h0
  · rw [h2]; exact go_full_consumption_last mask input h0 h2

theorem c3_truncation_witness :
    (['0', '1', '1'] : List Char) ≠ [] ∧
      (['0', '1', '1'] : List Char).length <
        countPlaceholders ['9', '9', '/', '9', '9'] ∧
      (formatToMaskGo ['9', '9', '/', '9', '9'] ['0', '1', '1']).2 = ['0', '1', '1'] ∧
      truncatedAtLastPlaced (formatToMaskGo ['9', '9', '/', '9', '9'] ['0', '1', '1']).1
        (formatToMaskGo ['9', '9', '/', '9', '9'] ['0', '1', '1']).2 :=
  ⟨by decide, by decide, by decide,
    c3_truncation_amended ['9', '9', '/', '9', '9'] ['0', '1', '1']
      (by decide) (by decide) (by decide)⟩

/-- C4 counterexample: the claim fails on the code.  For mask
"a9a 9a9" and raw input "1g", the digit '1' is not skipped - the mask
position is: the loop drops the first 'a' slot, then consumes '1' at
the '9' slot and 'g' at the following 'a' slot, producing formatted
"1g".  The subsequent letter 'g' therefore does not fill the first
placeholder position: the first output character is the digit, not a
letter. -/
theorem c4_skip_counterexample :
    formatToMask "a9a 9a9" "1g" = ("1g", "1g") ∧
      (formatToMask "a9a 9a9" "1g").1.data.head? ≠ some 'g' := by
  decide

/-- C4 (amended): for mask "a9a 9a9" and a raw input whose first
character is a digit, the first MASK position (the letter placeholder)
is skipped without consuming the digit - the input cursor does not
advance there, and the whole run equals a run over the mask with that
position removed; the digit then fills the next ('9') placeholder and
a subsequent letter fills the following 'a' placeholder. -/
theorem c4_skip_amended (d l : Char) (rest : List Char)
    (hd9 : charMatchesMask d '9' = true) (hda : charMatchesMask d 'a' = false)
    (hla : charMatchesMask l 'a' = true) :
    formatToMaskGo ['a', '9', 'a', ' ', '9', 'a', '9'] (d :: rest) =
        formatToMaskGo ['9', 'a', ' ', '9', 'a', '9'] (d :: rest) ∧
      formatToMaskGo ['a', '9', 'a', ' ', '9', 'a', '9'] [d, l] =
        ([d, l], [d, l]) := by
  constructor
  · exact go_placeholder_skip _ _ (by decide) hda
  · rw [go_placeholder_skip _ _ (by decide) hda,
      go_placeholder_match _ _ (by decide) hd9,
      go_placeholder_match _ _ (by decide) hla, go_nil_input]

theorem c4_skip_witness :
    charMatchesMask '1' '9' = true ∧ charMatchesMask '1' 'a' = false ∧
      charMatchesMask 'g' 'a' = true ∧
      (formatToMaskGo ['a', '9', 'a', ' ', '9', 'a', '9'] ['1', 'g'] =
          formatToMaskGo ['9', 'a', ' ', '9', 'a', '9'] ['1', 'g'] ∧
        formatToMaskGo ['a', '9', 'a', ' ', '9', 'a', '9'] ['1', 'g'] =
          (['1', 'g'], ['1', 'g'])) :=
  ⟨by decide, by decide, by decide,
    c4_skip_amended '1' 'g' ['g'] (by decide) (by decide) (by decide)⟩

/-- C5: at a placeholder mask position with input remaining, the loop
consumes the input head into both outputs exactly when the head
satisfies the placeholder's character class; otherwise it skips the
mask position without consuming input, appending nothing, and
continues with the next mask position over the unchanged input. -/
theorem c5_placeholder_step (m c : Char) (ms cs : List Char)
    (hp : isPlaceholder m = true) :
    formatToMaskGo (m :: ms) (c :: cs) =
      if charMatchesMask c m then
        (c :: (formatToMaskGo ms cs).1, c :: (formatToMaskGo ms cs).2)
      else
        formatToMaskGo ms (c :: cs) := by
  cases hc : charMatchesMask c m with
  | true => simp only [hc, if_true]; exact go_placeholder_match ms cs hp hc
  | false => simp only [hc, Bool.false_eq_true, if_false]; exact go_placeholder_skip ms cs hp hc

theorem c5_placeholder_step_witness :
    isPlaceholder '9' = true ∧
      formatToMaskGo ['9', 'a'] ['x', '1'] =
        (if charMatchesMask 'x' '9' then
          ('x' :: (formatToMaskGo ['a'] ['1']).1, 'x' :: (formatToMaskGo ['a'] ['1']).2)
        else formatToMaskGo ['a'] ['x', '1']) :=
  ⟨by decide, c5_placeholder_step '9' 'x' ['a'] ['1'] (by decide)⟩

/-- C6: at a literal mask position with input remaining whose head
differs from the literal, the loop looks one mask position ahead: if
there is no next position or the next position is itself a literal, the
literal is appended to the formatted output unconditionally without
consuming input; if the next position is a placeholder matched by the
current input head, the literal is likewise appended without consuming
input; and if the next position is a placeholder the head does not
match, formatting stops with the accumulated (here: empty-from-here)
result. -/
theorem c6_literal_step (m c : Char) (ms cs : List Char)
    (hp : isPlaceholder m = false) (hcm : c ≠ m) :
    formatToMaskGo (m :: ms) (c :: cs) =
      match ms with
      | [] => (m :: (formatToMaskGo ms (c :: cs)).1, (formatToMaskGo ms (c :: cs)).2)
      | m2 :: _ =>
        if isPlaceholder m2 then
          if charMatchesMask c m2 then
            (m :: (formatToMaskGo ms (c :: cs)).1, (formatToMaskGo ms (c :: cs)).2)
          else ([], [])
        else (m :: (formatToMaskGo ms (c :: cs)).1, (formatToMaskGo ms (c :: cs)).2) := by
  cases ms with
  | nil => exact go_literal_insert_last cs hp hcm
  | cons m2 ms2 =>
    cases hp2 : isPlaceholder m2 with
    | true =>
      cases hc2 : charMatchesMask c m2 with
      | true =>
        simp only [hp2, hc2, if_true]
        exact go_literal_insert_match ms2 cs hp hcm hp2 hc2
      | false =>
        simp only [hp2, hc2, Bool.false_eq_true, if_true, if_false]
        exact go_literal_stop ms2 cs hp hcm hp2 hc2
    | false =>
      simp only [hp2, Bool.false_eq_true, if_false]
      exact go_literal_insert_lit ms2 cs hp hcm hp2

theorem c6_literal_step_witness :
    isPlaceholder '-' = false ∧ ('5' : Char) ≠ '-' ∧
      formatToMaskGo ['-', '9'] ['5'] =
        (match ['9'] with
        | [] => ('-' :: (formatToMaskGo ['9'] ['5']).1, (formatToMaskGo ['9'] ['5']).2)
        | m2 :: _ =>
          if isPlaceholder m2 then
            if charMatchesMask '5' m2 then
              ('-' :: (formatToMaskGo ['9'] ['5']).1, (formatToMaskGo ['9'] ['5']).2)
            else ([], [])
          else ('-' :: (formatToMaskGo ['9'] ['5']).1, (formatToMaskGo ['9'] ['5']).2)) :=
  ⟨by decide, by decide, c6_literal_step '-' '5' ['9'] [] (by decide) (by decide)⟩

/-- C7: for mask "(999) 999-9999" and raw input "5555555555",
`formatToMask` returns formatted "(555) 555-5555" and unformatted
"5555555555". -/
theorem c7_phone_example :
    formatToMask "(999) 999-9999" "5555555555" =
      ("(555) 555-5555", "5555555555") := by
  decide

/-- C8 counterexample: the claimed characterization of the key-down
handler is false at the key "Escape" with no modifiers held: "Escape"
is not in the allowed-keys list and is not an alphanumeric character,
so the claim says the default action is suppressed - but the code's
regex test `/[A-Za-z0-9]/.test(e.key)` passes for any key NAME
containing an alphanumeric character, so "Escape" is let through and
`preventDefault` is not called. -/
theorem c8_keydown_counterexample :
    ¬ (handleKeyDownPreventsDefault ⟨"Escape", false, false, false, false⟩ = true ↔
        (isModifierKey ⟨"Escape", false, false, false, false⟩ = false ∧
          allowedKeys.contains "Escape" = false ∧
          keyIsAlnumCharSpec "Escape" = false)) := by
  decide

/-- C8 (amended): for every key event, the key-down handler calls
`preventDefault` exactly when the event is not a modifier combination,
the key is none of Backspace, Delete, ArrowLeft, ArrowRight, Tab,
Enter, and the key string CONTAINS no alphanumeric character (rather
than "is not an alphanumeric character"). -/
theorem c8_keydown_amended (e : KeyEvent) :
    handleKeyDownPreventsDefault e = true ↔
      (isModifierKey e = false ∧ e.key ∉ allowedKeys ∧
        keyHasAlphanumeric e.key = false) := by
  cases hm : isModifierKey e with
  | true => simp [handleKeyDownPreventsDefault, hm]
  | false =>
    cases ha : allowedKeys.contains e.key with
    | true =>
      have hmem : e.key ∈ allowedKeys := by simpa using ha
      simp [handleKeyDownPreventsDefault, hm, ha, hmem]
    | false =>
      have hmem : e.key ∉ allowedKeys := by simpa using ha
      cases hk : keyHasAlphanumeric e.key with
      | true => simp [handleKeyDownPreventsDefault, hm, ha, hk, hmem]
      | false => simp [handleKeyDownPreventsDefault, hm, ha, hk, hmem]

/-- C9: the formatting function is a total computable function - it is
defined by structural recursion on the mask, so it terminates on every
mask (malformed ones included) and every raw input and always returns a
`(formatted, unformatted)` pair; all list access is by pattern
matching, hence in bounds.  Invalid input only ever shortens the
outputs: the formatted result never exceeds the mask's length and the
unformatted result never exceeds the input's length - truncation and
filtering, never a fault. -/
theorem c9_total_graceful (mask input : List Char) :
    ((formatToMaskGo mask input).1).length ≤ mask.length ∧
      ((formatToMaskGo mask input).2).length ≤ input.length :=
  ⟨go_formatted_length mask input, (go_unformatted_sublist mask input).length_le⟩

/-- C10: for every mask and raw input, the unformatted output is a
subsequence of the raw input - its characters occur in the input in
the same relative order, nothing is invented or reordered - and its
length is at most the input's length. -/
theorem c10_unformatted_subsequence_of_input (mask input : List Char) :
    ((formatToMaskGo mask input).2).Sublist input ∧
      ((formatToMaskGo mask input).2).length ≤ input.length :=
  ⟨go_unformatted_sublist mask input, (go_unformatted_sublist mask input).length_le⟩

end MaskedInput
